import Mathlib

/-!
Verification development for the audiobook generator pipeline (`main.py`).

The pipeline is shallowly embedded: strings are `List Char`, EPUB items are a
structure carrying the fields the code reads (`get_name`, `get_type`,
`get_text`, the texts of the heading elements `soup.find` searches), the
external text-to-speech engine is an abstract function from chapter text to a
list of sample buffers, and the effectful parts (temporary-file lifetime,
output-directory creation, exception propagation) are modelled by explicit
outcome records with Boolean failure flags for the fallible external calls.
-/

namespace AudiobookGen

/-- Python's `\s` / `str.strip()` whitespace class, restricted to the ASCII
whitespace characters (` `, TAB, LF, CR, VT, FF). -/
def isPySpace (c : Char) : Bool :=
  c = ' ' || c = '\t' || c = '\n' || c = '\r' || c = '\x0b' || c = '\x0c'

/-- The suffix that follows the last `'\n'` of a list, when the list contains
one; `none` when it contains no newline.  This captures the backtracking of
the greedy `\s*` in the regex `\n\s*\n`: the match extends to the LAST newline
of the whitespace run that follows the opening newline. -/
def dropThroughLastNewline : List Char → Option (List Char)
  | [] => none
  | c :: cs =>
    match dropThroughLastNewline cs with
    | some r => some r
    | none => if c = '\n' then some cs else none

/-- Fuelled worker for `re.sub(r'\n\s*\n', '\n\n', text)`.  The fuel (any
upper bound on the list length, see `collapseBlankF_congr`) only makes the
recursion structural; it never runs out on the intended calls.  Scanning is
left to right; at a `'\n'` whose following whitespace run contains another
`'\n'`, the match consumes up to the last newline of that run and is replaced
by two newlines; scanning resumes after the match (the replacement is not
rescanned). -/
def collapseBlankF : Nat → List Char → List Char
  | _, [] => []
  | 0, s => s
  | fuel + 1, c :: cs =>
    if c = '\n' then
      match dropThroughLastNewline (cs.takeWhile isPySpace) with
      | some tail => '\n' :: '\n' :: collapseBlankF fuel (tail ++ cs.dropWhile isPySpace)
      | none => c :: collapseBlankF fuel cs
    else
      c :: collapseBlankF fuel cs

/-- `re.sub(r'\n\s*\n', '\n\n', text)` (line 64 of `main.py`). -/
def collapseBlank (s : List Char) : List Char :=
  collapseBlankF s.length s

/-- Python `str.strip()`: drop leading and trailing whitespace. -/
def pyStrip (s : List Char) : List Char :=
  ((s.dropWhile isPySpace).reverse.dropWhile isPySpace).reverse

/-- The text-cleaning step of `extract_chapters_from_epub`:
`text = re.sub(r'\n\s*\n', '\n\n', text); text = text.strip()`
(lines 64-65 of `main.py`). -/
def cleanText (s : List Char) : List Char :=
  pyStrip (collapseBlank s)

/-- Spec-side normalization of ONE maximal whitespace run, following the
spec's words: a run holding one or more newlines becomes exactly one blank
line (two newlines); any other run is unchanged. -/
def specRunNorm (r : List Char) : List Char :=
  if 1 ≤ r.count '\n' then ['\n', '\n'] else r

/-- Spec-side whitespace normalization, written from the claim's words (not
from the code): every maximal run of whitespace containing at least one
newline is replaced by exactly two newlines. -/
def specNormalize : List Char → List Char
  | [] => []
  | c :: cs =>
    if isPySpace c then
      specRunNorm ((c :: cs).takeWhile isPySpace) ++
        specNormalize ((c :: cs).dropWhile isPySpace)
    else
      c :: specNormalize cs
  termination_by s => s.length
  decreasing_by
    · rename_i hsp
      rw [List.dropWhile_cons, if_pos hsp]
      have := (List.dropWhile_sublist isPySpace (l := cs)).length_le
      simp only [List.length_cons]
      omega
    · simp only [List.length_cons]; omega

/-- Amended normalization of ONE maximal whitespace run: when the run holds at
least two newlines, the stretch from its first newline through its last
newline becomes exactly two newlines (whitespace before the first newline and
after the last newline is kept); a run with fewer than two newlines is
unchanged. -/
def amendedRunNorm (r : List Char) : List Char :=
  if 2 ≤ r.count '\n' then
    (r.takeWhile (fun c => c ≠ '\n')) ++ '\n' :: '\n' :: (dropThroughLastNewline r).getD []
  else r

/-- Amended whitespace normalization, run by run. -/
def amendedNormalize : List Char → List Char
  | [] => []
  | c :: cs =>
    if isPySpace c then
      amendedRunNorm ((c :: cs).takeWhile isPySpace) ++
        amendedNormalize ((c :: cs).dropWhile isPySpace)
    else
      c :: amendedNormalize cs
  termination_by s => s.length
  decreasing_by
    · rename_i hsp
      rw [List.dropWhile_cons, if_pos hsp]
      have := (List.dropWhile_sublist isPySpace (l := cs)).length_le
      simp only [List.length_cons]
      omega
    · simp only [List.length_cons]; omega

/-- An EPUB item, carrying exactly the fields `extract_chapters_from_epub`
reads: `get_name()`, whether `get_type() == ITEM_DOCUMENT`, the visible text
`soup.get_text()`, and the texts of the `h1`/`h2`/`h3` elements in document
order (`soup.find(['h1','h2','h3'])` returns the first of these, if any). -/
structure Item where
  name : List Char
  isDocument : Bool
  text : List Char
  headings : List (List Char)
  deriving DecidableEq, Repr

/-- A chapter record `(chapter_num, title, text)`. -/
structure Chapter where
  num : Nat
  title : List Char
  text : List Char
  deriving DecidableEq, Repr

/-- Whether a document item survives the `if not text or len(text) < 50:
continue` filter (lines 67-69 of `main.py`), i.e. is retained as a chapter. -/
def retainedItem (item : Item) : Bool :=
  item.isDocument && !(cleanText item.text = [] || (cleanText item.text).length < 50)

/-- Title assignment (lines 71-75 of `main.py`): `title = item.get_name()`,
overwritten by `h1.get_text().strip()` when `soup.find(['h1','h2','h3'])`
finds a heading. -/
def itemTitle (item : Item) : List Char :=
  match item.headings.head? with
  | some h => pyStrip h
  | none => item.name

/-- The loop body of `extract_chapters_from_epub` (lines 54-79 of `main.py`),
with `n` the current value of `chapter_num`. -/
def extractChapters : List Item → Nat → List Chapter
  | [], _ => []
  | item :: rest, n =>
    if item.isDocument then
      let text := cleanText item.text
      if text = [] || text.length < 50 then
        extractChapters rest n
      else
        ⟨n + 1, itemTitle item, text⟩ :: extractChapters rest (n + 1)
    else
      extractChapters rest n

/-- `extract_chapters_from_epub`, over the book's item list (`chapter_num`
starts at 0). -/
def extract_chapters_from_epub (items : List Item) : List Chapter :=
  extractChapters items 0

/-- Book metadata as returned by `get_book_metadata`. -/
structure BookMetadata where
  title : List Char
  author : List Char
  publisher : List Char
  date : List Char
  language : List Char
  deriving DecidableEq, Repr

/-- The per-chapter metadata dictionary built in `generate_audiobook`
(lines 196-205 of `main.py`).  All keys are always present there, so the
dictionary is a record. -/
structure ChapterMeta where
  album : List Char
  title : List Char
  author : List Char
  genre : List Char
  date : List Char
  track_num : Nat
  total_tracks : Nat
  comment : List Char
  deriving DecidableEq, Repr

/-- The MP4 tag set written by `save_audio_as_m4b` (lines 113-137 of
`main.py`) for a metadata record in which every key is present. -/
structure M4BTags where
  alb : List Char
  nam : List Char
  art : List Char
  aART : List Char
  gen : List Char
  day : Option (List Char)
  cmt : List Char
  trkn : Nat × Nat
  stik : Nat
  deriving DecidableEq, Repr

/-- The tags `save_audio_as_m4b` writes from a `ChapterMeta` (the `'date'`
tag is written only when the date string is non-empty). -/
def tagsOfMeta (m : ChapterMeta) : M4BTags where
  alb := m.album
  nam := m.title
  art := m.author
  aART := m.author
  gen := m.genre
  day := if m.date = [] then none else some m.date
  cmt := m.comment
  trkn := (m.track_num, m.total_tracks)
  stik := 2

/-- Decimal digits of a natural number. -/
def natDigits (n : Nat) : List Char :=
  (Nat.toDigits 10 n)

/-- Python `f"{n:02d}"`: the decimal form of `n`, left-padded with `'0'` to
width 2. -/
def zeroPad2 (n : Nat) : List Char :=
  if (natDigits n).length < 2 then '0' :: natDigits n else natDigits n

/-- `os.path.join(output_dir, f"chapter_{chapter_num:02d}.m4b")`. -/
def chapterPath (outputDir : List Char) (n : Nat) : List Char :=
  outputDir ++ '/' :: ("chapter_".data ++ zeroPad2 n ++ ".m4b".data)

/-- One output file persisted by `save_audio_as_m4b`. -/
structure WrittenFile where
  path : List Char
  audio : List Int
  tags : M4BTags
  deriving DecidableEq, Repr

/-- The metadata dictionary `generate_audiobook` builds for one chapter
(lines 196-205 of `main.py`; the chapter title field is
`f"Chapter {chapter_num}: {title}"`). -/
def chapterMetaFor (bm : BookMetadata) (total : Nat) (c : Chapter) : ChapterMeta where
  album := bm.title
  title := "Chapter ".data ++ natDigits c.num ++ ": ".data ++ c.title
  author := bm.author
  genre := "Audiobook".data
  date := bm.date
  track_num := c.num
  total_tracks := total
  comment := "Generated with Kokoro TTS".data

/-- The file `generate_audiobook` writes for one chapter whose synthesized
segment list is non-empty: path `chapter_{NN}.m4b` in the output directory,
audio the concatenation of the segments, tags from the chapter metadata. -/
def fileFor (outputDir : List Char) (bm : BookMetadata) (total : Nat)
    (segs : List (List Int)) (c : Chapter) : WrittenFile where
  path := chapterPath outputDir c.num
  audio := segs.flatten
  tags := tagsOfMeta (chapterMetaFor bm total c)

/-- Outcome of one call of `save_audio_as_m4b` (lines 84-142 of `main.py`):
whether an exception propagated, and whether the temporary intermediate WAV
file still exists when the call returns or propagates.  The three Boolean
flags say whether the fallible external calls raise: `wavWriteRaises` the
initial `sf.write` inside the `with` block (before the `try`),
`exportRaises` the `AudioSegment` load / `audio.export` re-encode step, and
`tagRaises` the mutagen tag writing (`MP4(...)` through `audio_file.save()`).
The `try`/`finally` runs `os.remove` when `os.path.exists` holds, on every
exit from the `try`; an exception before the `try` skips the `finally`. -/
structure SaveOutcome where
  raised : Bool
  tempWavExists : Bool
  deriving DecidableEq, Repr

/-- Control-flow model of `save_audio_as_m4b`.  `NamedTemporaryFile` with
`delete=False` creates the temporary WAV file, so it exists from the start of
the `with` block onward until `os.remove` deletes it. -/
def save_audio_as_m4b (wavWriteRaises exportRaises tagRaises : Bool) : SaveOutcome :=
  let tempExists := true
  if wavWriteRaises then
    { raised := true, tempWavExists := tempExists }
  else
    let raisedInTry := exportRaises || tagRaises
    let tempAfterFinally := if tempExists then false else tempExists
    { raised := raisedInTry, tempWavExists := tempAfterFinally }

/-- Outcome of one call of `generate_audiobook` (lines 145-216 of `main.py`):
whether the output directory exists afterwards, whether an exception
propagated, and the list of files written, in order.  `dirExists0` says
whether the output directory existed before the call (`os.makedirs` with
`exist_ok=True` makes it exist unconditionally); `parseRaises` says whether
`epub.read_epub` (reached through `get_book_metadata`, after `os.makedirs`)
raises. -/
structure GenOutcome where
  outputDirExists : Bool
  raised : Bool
  files : List WrittenFile
  deriving DecidableEq, Repr

/-- `generate_audiobook`, with the TTS pipeline abstracted as `synth`, the
function from chapter text to the list of synthesized sample buffers.  A
chapter whose segment list is empty writes no file (`if chapter_audio:`,
line 192); otherwise the concatenated audio is saved with the chapter's
metadata. -/
def generate_audiobook (dirExists0 : Bool) (parseRaises : Bool)
    (bm : BookMetadata) (items : List Item) (outputDir : List Char)
    (synth : List Char → List (List Int)) : GenOutcome :=
  let dirExists := dirExists0 || true
  if parseRaises then
    { outputDirExists := dirExists, raised := true, files := [] }
  else
    let chapters := extract_chapters_from_epub items
    let total := chapters.length
    { outputDirExists := dirExists
      raised := false
      files := chapters.filterMap (fun c =>
        let segs := synth c.text
        if segs.isEmpty then none
        else some (fileFor outputDir bm total segs c)) }

/-- Book metadata used by the concrete demonstration runs below. -/
def demoBook : BookMetadata :=
  ⟨"The Art of War".data, "Sun Tzu".data, [], "2024".data, "en".data⟩

/-- A document item whose cleaned text (60 characters) passes the filter. -/
def demoItemA : Item := ⟨"ch1.xhtml".data, true, List.replicate 60 'a', []⟩

/-- A document item whose cleaned text (5 characters) is dropped. -/
def demoItemShort : Item := ⟨"toc.xhtml".data, true, "short".data, []⟩

/-- A second retained document item. -/
def demoItemB : Item := ⟨"ch2.xhtml".data, true, List.replicate 60 'b', []⟩

/-- A retained item whose first heading text carries surrounding whitespace. -/
def demoItemHeaded : Item :=
  ⟨"ch1.xhtml".data, true, List.replicate 60 'a', [[' ', 'T', ' ']]⟩

/-- Three document items: retained, dropped (too short), retained. -/
def demoItems3 : List Item := [demoItemA, demoItemShort, demoItemB]

/-- A synthesizer stub that yields no segments for any text. -/
def demoSynthNone : List Char → List (List Int) := fun _ => []

/-- A synthesizer stub that yields one segment for any text. -/
def demoSynthOne : List Char → List (List Int) := fun _ => [[0]]

/-- A synthesizer stub that yields no segments exactly for texts starting
with the character of the first demo chapter. -/
def demoSynthSkipA : List Char → List (List Int) :=
  fun t => if t.head? = some 'a' then [] else [[1]]

/-- The output directory of the demonstration runs. -/
def demoOutDir : List Char := "out".data

theorem dropThroughLastNewline_length {cs r : List Char}
    (h : dropThroughLastNewline cs = some r) : r.length < cs.length := by
  induction cs with
  | nil => simp [dropThroughLastNewline] at h
  | cons c cs ih =>
    simp only [dropThroughLastNewline] at h
    cases hrec : dropThroughLastNewline cs with
    | some r' =>
      rw [hrec] at h
      cases h
      exact Nat.lt_trans (ih hrec) (Nat.lt_succ_self _)
    | none =>
      rw [hrec] at h
      by_cases hc : c = '\n'
      · simp only [hc, if_pos rfl] at h
        cases h
        exact Nat.lt_succ_self _
      · simp [hc] at h

theorem takeWhile_dropWhile_split (p : Char → Bool) (l : List Char) :
    (l.takeWhile p).length + (l.dropWhile p).length = l.length := by
  have h := List.takeWhile_append_dropWhile p l
  calc (l.takeWhile p).length + (l.dropWhile p).length
      = (l.takeWhile p ++ l.dropWhile p).length := (List.length_append _ _).symm
    _ = l.length := by rw [h]

/-- The fuel of `collapseBlankF` is irrelevant once it bounds the length. -/
theorem collapseBlankF_congr :
    ∀ (f f' : Nat) (s : List Char), s.length ≤ f → s.length ≤ f' →
      collapseBlankF f s = collapseBlankF f' s := by
  intro f
  induction f with
  | zero =>
    intro f' s h _
    have hs : s = [] := List.length_eq_zero.mp (Nat.le_zero.mp h)
    subst hs
    cases f' <;> rfl
  | succ f ih =>
    intro f' s h h'
    cases s with
    | nil => cases f' <;> rfl
    | cons c cs =>
      have hlen : cs.length + 1 ≤ f' := by simpa using h'
      obtain ⟨f'', rfl⟩ : ∃ f'', f' = f'' + 1 := by
        cases f' with
        | zero => omega
        | succ k => exact ⟨k, rfl⟩
      have hcs : cs.length ≤ f := by simpa using h
      have hcs' : cs.length ≤ f'' := by omega
      simp only [collapseBlankF]
      by_cases hc : c = '\n'
      · simp only [if_pos hc]
        cases hm : dropThroughLastNewline (cs.takeWhile isPySpace) with
        | some tail =>
          have htail := dropThroughLastNewline_length hm
          have hsplit := takeWhile_dropWhile_split isPySpace cs
          have hrec : (tail ++ cs.dropWhile isPySpace).length ≤ f := by
            simp only [List.length_append]; omega
          have hrec' : (tail ++ cs.dropWhile isPySpace).length ≤ f'' := by
            simp only [List.length_append]; omega
          dsimp only
          rw [ih _ _ hrec hrec']
        | none =>
          dsimp only
          rw [ih _ _ hcs hcs']
      · simp only [if_neg hc]
        rw [ih _ _ hcs hcs']

theorem collapseBlank_nil : collapseBlank [] = [] := rfl

/-- The natural recursion of the regex substitution, with the fuel hidden. -/
theorem collapseBlank_cons (c : Char) (cs : List Char) :
    collapseBlank (c :: cs) =
      if c = '\n' then
        match dropThroughLastNewline (cs.takeWhile isPySpace) with
        | some tail => '\n' :: '\n' :: collapseBlank (tail ++ cs.dropWhile isPySpace)
        | none => c :: collapseBlank cs
      else
        c :: collapseBlank cs := by
  show collapseBlankF (c :: cs).length (c :: cs) = _
  simp only [List.length_cons, collapseBlankF]
  by_cases hc : c = '\n'
  · simp only [if_pos hc]
    cases hm : dropThroughLastNewline (cs.takeWhile isPySpace) with
    | some tail =>
      have htail := dropThroughLastNewline_length hm
      have hsplit := takeWhile_dropWhile_split isPySpace cs
      dsimp only
      rw [collapseBlankF_congr cs.length (tail ++ cs.dropWhile isPySpace).length
        (tail ++ cs.dropWhile isPySpace) (by simp only [List.length_append]; omega) le_rfl]
      rfl
    | none =>
      rfl
  · simp only [if_neg hc]
    rfl

/-- Characters that are whitespace but not newlines pass through the
substitution untouched: no match can start on them. -/
theorem collapseBlank_append_nonewline (a rest : List Char)
    (ha : ∀ c ∈ a, c ≠ '\n') :
    collapseBlank (a ++ rest) = a ++ collapseBlank rest := by
  induction a with
  | nil => rfl
  | cons c a ih =>
    have hc : c ≠ '\n' := ha c (by simp)
    have ha' : ∀ d ∈ a, d ≠ '\n' := fun d hd => ha d (by simp [hd])
    rw [List.cons_append, collapseBlank_cons, if_neg hc, ih ha']
    rfl

theorem dropThroughLastNewline_eq_none {l : List Char} (h : '\n' ∉ l) :
    dropThroughLastNewline l = none := by
  induction l with
  | nil => rfl
  | cons c cs ih =>
    have hc : c ≠ '\n' := fun hc => h (by simp [hc])
    have hcs : '\n' ∉ cs := fun hm => h (by simp [hm])
    simp only [dropThroughLastNewline, ih hcs]
    rw [if_neg hc]

theorem dropThroughLastNewline_isSome {l : List Char} (h : '\n' ∈ l) :
    (dropThroughLastNewline l).isSome := by
  induction l with
  | nil => simp at h
  | cons c cs ih =>
    simp only [dropThroughLastNewline]
    cases hrec : dropThroughLastNewline cs with
    | some r => simp
    | none =>
      have hcs : '\n' ∉ cs := by
        intro hm
        have hs := ih hm
        rw [hrec] at hs
        simp at hs
      have hc : c = '\n' := by
        rcases List.mem_cons.mp h with h1 | h2
        · exact h1.symm
        · exact absurd h2 hcs
      simp [hc]

theorem dropThroughLastNewline_mem {l t : List Char}
    (h : dropThroughLastNewline l = some t) : ∀ c ∈ t, c ∈ l := by
  induction l with
  | nil => simp [dropThroughLastNewline] at h
  | cons c cs ih =>
    simp only [dropThroughLastNewline] at h
    cases hrec : dropThroughLastNewline cs with
    | some r =>
      rw [hrec] at h
      cases h
      intro d hd
      exact List.mem_cons_of_mem _ (ih hrec d hd)
    | none =>
      rw [hrec] at h
      by_cases hc : c = '\n'
      · simp only [hc, if_pos rfl] at h
        cases h
        intro d hd
        exact List.mem_cons_of_mem _ hd
      · simp [hc] at h

theorem dropThroughLastNewline_no_newline {l t : List Char}
    (h : dropThroughLastNewline l = some t) : '\n' ∉ t := by
  induction l with
  | nil => simp [dropThroughLastNewline] at h
  | cons c cs ih =>
    simp only [dropThroughLastNewline] at h
    cases hrec : dropThroughLastNewline cs with
    | some r =>
      rw [hrec] at h
      cases h
      exact ih hrec
    | none =>
      rw [hrec] at h
      by_cases hc : c = '\n'
      · simp only [hc, if_pos rfl] at h
        cases h
        intro hmem
        have := dropThroughLastNewline_isSome hmem
        simp [hrec] at this
      · simp [hc] at h

theorem dropThroughLastNewline_append {x y t : List Char}
    (h : dropThroughLastNewline y = some t) :
    dropThroughLastNewline (x ++ y) = some t := by
  induction x with
  | nil => simpa using h
  | cons c cs ih =>
    show dropThroughLastNewline (c :: (cs ++ y)) = some t
    simp only [dropThroughLastNewline, ih]

theorem dropThroughLastNewline_cons_newline {m : List Char} (h : '\n' ∉ m) :
    dropThroughLastNewline ('\n' :: m) = some m := by
  simp [dropThroughLastNewline, dropThroughLastNewline_eq_none h]

/-- `takeWhile`/`dropWhile` on a list that starts with a full `p`-block. -/
theorem takeWhile_append_all {p : Char → Bool} {b rest : List Char}
    (hb : ∀ c ∈ b, p c = true)
    (hrest : ∀ d, rest.head? = some d → p d = false) :
    (b ++ rest).takeWhile p = b ∧ (b ++ rest).dropWhile p = rest := by
  induction b with
  | nil =>
    cases rest with
    | nil => simp
    | cons d ds =>
      have hd : p d = false := hrest d rfl
      simp [List.takeWhile, List.dropWhile, hd]
  | cons c b ih =>
    have hc : p c = true := hb c (by simp)
    have ih' := ih (fun d hd => hb d (by simp [hd]))
    simp [List.takeWhile_cons, List.dropWhile_cons, hc, ih'.1, ih'.2]

theorem dropWhile_head_not {p : Char → Bool} {l : List Char} {d : Char}
    (h : (l.dropWhile p).head? = some d) : p d = false := by
  induction l with
  | nil => simp [List.dropWhile] at h
  | cons c cs ih =>
    rw [List.dropWhile_cons] at h
    by_cases hc : p c = true
    · rw [if_pos hc] at h
      exact ih h
    · rw [if_neg hc] at h
      rw [List.head?_cons] at h
      have hd := Option.some.inj h
      subst hd
      cases hpc : p c
      · rfl
      · exact absurd hpc hc

/-- Decomposition of a list around its first newline. -/
theorem newline_run_decomp (r : List Char) (h : '\n' ∈ r) :
    ∃ m, r = r.takeWhile (fun c => c ≠ '\n') ++ '\n' :: m ∧
      (∀ c ∈ r.takeWhile (fun c => c ≠ '\n'), c ≠ '\n') ∧ (∀ c ∈ m, c ∈ r) := by
  set p : Char → Bool := fun c => c ≠ '\n' with hp
  have hsplit := List.takeWhile_append_dropWhile p r
  have ha : ∀ c ∈ r.takeWhile p, c ≠ '\n' := by
    intro c hc
    have := List.mem_takeWhile_imp hc
    rw [hp] at this
    simpa using this
  cases hd : r.dropWhile p with
  | nil =>
    exfalso
    rw [hd, List.append_nil] at hsplit
    refine ha '\n' ?_ rfl
    rw [hsplit]
    exact h
  | cons e m =>
    have he : p e = false := dropWhile_head_not (by rw [hd]; rfl)
    have he' : e = '\n' := by
      rw [hp] at he
      simpa using he
    refine ⟨m, ?_, ha, ?_⟩
    · symm
      rw [← he', ← hd]
      exact hsplit
    · intro c hc
      rw [← hsplit, hd]
      exact List.mem_append_right _ (List.mem_cons_of_mem _ hc)

/-- How one maximal whitespace run is processed by the substitution:
the amended per-run normalization. -/
theorem collapseBlank_run (r rest : List Char)
    (hws : ∀ c ∈ r, isPySpace c = true)
    (hrest : ∀ d, rest.head? = some d → isPySpace d = false) :
    collapseBlank (r ++ rest) = amendedRunNorm r ++ collapseBlank rest := by
  by_cases hmem : '\n' ∈ r
  · obtain ⟨m, hdecomp, ha, hmr⟩ := newline_run_decomp r hmem
    set a : List Char := r.takeWhile (fun c => c ≠ '\n') with hadef
    have hmws : ∀ c ∈ m, isPySpace c = true := fun c hc => hws c (hmr c hc)
    have hcount : r.count '\n' = m.count '\n' + 1 := by
      rw [hdecomp, List.count_append, List.count_cons]
      have : a.count '\n' = 0 := by
        rw [List.count_eq_zero]
        intro hc
        exact ha '\n' hc rfl
      simp [this]
    have hsteps : collapseBlank (r ++ rest) =
        a ++ collapseBlank ('\n' :: (m ++ rest)) := by
      rw [hdecomp]
      rw [List.append_assoc, List.cons_append]
      exact collapseBlank_append_nonewline a ('\n' :: (m ++ rest)) ha
    have htake : (m ++ rest).takeWhile isPySpace = m ∧
        (m ++ rest).dropWhile isPySpace = rest :=
      takeWhile_append_all hmws hrest
    by_cases hm : '\n' ∈ m
    · -- at least two newlines in the run
      obtain ⟨tail, htail⟩ := Option.isSome_iff_exists.mp (dropThroughLastNewline_isSome hm)
      have htailnn : '\n' ∉ tail := dropThroughLastNewline_no_newline htail
      have htailws : ∀ c ∈ tail, c ≠ '\n' := fun c hc hh => htailnn (hh ▸ hc)
      have hcons : collapseBlank ('\n' :: (m ++ rest)) =
          '\n' :: '\n' :: collapseBlank (tail ++ rest) := by
        rw [collapseBlank_cons, if_pos rfl, htake.1, htake.2, htail]
      have hnorm : amendedRunNorm r = a ++ '\n' :: '\n' :: tail := by
        unfold amendedRunNorm
        rw [if_pos]
        · have hdrop : dropThroughLastNewline r = some tail := by
            rw [hdecomp]
            apply dropThroughLastNewline_append
            show dropThroughLastNewline ('\n' :: m) = some tail
            simp only [dropThroughLastNewline, htail]
          rw [hdrop, ← hadef]
          rfl
        · have := List.count_pos_iff.mpr hm
          omega
      rw [hsteps, hcons, collapseBlank_append_nonewline tail rest htailws, hnorm]
      simp
    · -- exactly one newline in the run
      have hcons : collapseBlank ('\n' :: (m ++ rest)) =
          '\n' :: (m ++ collapseBlank rest) := by
        rw [collapseBlank_cons, if_pos rfl, htake.1, htake.2,
          dropThroughLastNewline_eq_none hm]
        have hmnn : ∀ c ∈ m, c ≠ '\n' := fun c hc hh => hm (hh ▸ hc)
        rw [collapseBlank_append_nonewline m rest hmnn]
      have hnorm : amendedRunNorm r = r := by
        unfold amendedRunNorm
        rw [if_neg]
        have : m.count '\n' = 0 := List.count_eq_zero.mpr hm
        omega
      rw [hsteps, hcons, hnorm, hdecomp]
      simp
  · -- no newline in the run
    have ha : ∀ c ∈ r, c ≠ '\n' := fun c hc hh => hmem (hh ▸ hc)
    rw [collapseBlank_append_nonewline r rest ha]
    have hnorm : amendedRunNorm r = r := by
      unfold amendedRunNorm
      rw [if_neg]
      have : r.count '\n' = 0 := List.count_eq_zero.mpr hmem
      omega
    rw [hnorm]

/-- The code's substitution coincides with the run-by-run amended
normalization. -/
theorem collapseBlank_eq_amendedNormalize (s : List Char) :
    collapseBlank s = amendedNormalize s := by
  induction s using amendedNormalize.induct with
  | case1 => rw [collapseBlank_nil, amendedNormalize]
  | case2 c cs hsp ih =>
    have hws : ∀ d ∈ (c :: cs).takeWhile isPySpace, isPySpace d = true :=
      fun d hd => List.mem_takeWhile_imp hd
    have hrest : ∀ d, ((c :: cs).dropWhile isPySpace).head? = some d →
        isPySpace d = false := fun d hd => dropWhile_head_not hd
    have hsplit := List.takeWhile_append_dropWhile isPySpace (c :: cs)
    calc collapseBlank (c :: cs)
        = collapseBlank ((c :: cs).takeWhile isPySpace ++ (c :: cs).dropWhile isPySpace) := by
          rw [hsplit]
      _ = amendedRunNorm ((c :: cs).takeWhile isPySpace) ++
          collapseBlank ((c :: cs).dropWhile isPySpace) :=
          collapseBlank_run _ _ hws hrest
      _ = amendedRunNorm ((c :: cs).takeWhile isPySpace) ++
          amendedNormalize ((c :: cs).dropWhile isPySpace) := by rw [ih]
      _ = amendedNormalize (c :: cs) := by
          rw [amendedNormalize, if_pos hsp]
  | case3 c cs hsp ih =>
    have hc : c ≠ '\n' := by
      intro hh
      rw [hh] at hsp
      simp [isPySpace] at hsp
    rw [collapseBlank_cons, if_neg hc, ih, amendedNormalize, if_neg hsp]

theorem amendedRunNorm_ws {r : List Char} (hr : ∀ c ∈ r, isPySpace c = true) :
    ∀ c ∈ amendedRunNorm r, isPySpace c = true := by
  intro c hc
  unfold amendedRunNorm at hc
  by_cases h2 : 2 ≤ r.count '\n'
  · rw [if_pos h2] at hc
    rcases List.mem_append.mp hc with h | h
    · exact hr c ((List.takeWhile_sublist _).subset h)
    · rcases List.mem_cons.mp h with h | h
      · rw [h]; rfl
      · rcases List.mem_cons.mp h with h | h
        · rw [h]; rfl
        · cases hd : dropThroughLastNewline r with
          | some tail =>
            rw [hd] at h
            exact hr c (dropThroughLastNewline_mem hd c (by simpa using h))
          | none =>
            rw [hd] at h
            simp at h
  · rw [if_neg h2] at hc
    exact hr c hc

theorem amendedRunNorm_idem (r : List Char) :
    amendedRunNorm (amendedRunNorm r) = amendedRunNorm r := by
  by_cases h2 : 2 ≤ r.count '\n'
  · have hmem : '\n' ∈ r := by
      rw [← List.count_pos_iff]
      omega
    obtain ⟨tail, htail⟩ := Option.isSome_iff_exists.mp (dropThroughLastNewline_isSome hmem)
    have htailnn : '\n' ∉ tail := dropThroughLastNewline_no_newline htail
    have hr1 : amendedRunNorm r =
        r.takeWhile (fun c => c ≠ '\n') ++ '\n' :: '\n' :: tail := by
      unfold amendedRunNorm
      rw [if_pos h2, htail]
      rfl
    set a : List Char := r.takeWhile (fun c => c ≠ '\n') with hadef
    have ha' : ∀ d ∈ a, d ≠ '\n' := by
      intro d hd
      rw [hadef] at hd
      have := List.mem_takeWhile_imp hd
      simpa using this
    have ha : ∀ d ∈ a, (fun c => decide (c ≠ '\n')) d = true := by
      intro d hd
      simpa using ha' d hd
    have hann : a.count '\n' = 0 := by
      rw [List.count_eq_zero]
      intro hc
      exact ha' '\n' hc rfl
    have hcount2 : (a ++ '\n' :: '\n' :: tail).count '\n' = 2 := by
      rw [List.count_append, List.count_cons, List.count_cons, hann,
        List.count_eq_zero.mpr htailnn]
      simp
    have htake : (a ++ '\n' :: '\n' :: tail).takeWhile (fun c => c ≠ '\n') = a := by
      exact (takeWhile_append_all ha (by intro d hd; cases hd; simp)).1
    have hdrop : dropThroughLastNewline (a ++ '\n' :: '\n' :: tail) = some tail := by
      apply dropThroughLastNewline_append
      show dropThroughLastNewline ('\n' :: '\n' :: tail) = some tail
      simp only [dropThroughLastNewline, dropThroughLastNewline_eq_none htailnn]
      rfl
    rw [hr1]
    unfold amendedRunNorm
    rw [if_pos (by rw [hcount2]), htake, hdrop]
    rfl
  · have hr1 : amendedRunNorm r = r := by
      unfold amendedRunNorm
      rw [if_neg h2]
    rw [hr1, hr1]

theorem amendedNormalize_nil : amendedNormalize [] = [] := by
  rw [amendedNormalize]

/-- `amendedNormalize` applied to a full whitespace block followed by a
non-whitespace (or empty) rest. -/
theorem amendedNormalize_append_run (r rest : List Char)
    (hr : ∀ c ∈ r, isPySpace c = true)
    (hrest : ∀ d, rest.head? = some d → isPySpace d = false) :
    amendedNormalize (r ++ rest) = amendedRunNorm r ++ amendedNormalize rest := by
  cases r with
  | nil =>
    have : amendedRunNorm [] = [] := by
      unfold amendedRunNorm
      simp
    rw [this]
    rfl
  | cons c r' =>
    have hc : isPySpace c = true := hr c (by simp)
    have hta := takeWhile_append_all hr hrest
    rw [List.cons_append, amendedNormalize, if_pos hc]
    rw [← List.cons_append, hta.1, hta.2]

theorem amendedNormalize_head_not_space {rest : List Char}
    (hrest : ∀ d, rest.head? = some d → isPySpace d = false) :
    ∀ d, (amendedNormalize rest).head? = some d → isPySpace d = false := by
  intro d hd
  cases rest with
  | nil =>
    rw [amendedNormalize_nil] at hd
    simp at hd
  | cons e es =>
    have he : isPySpace e = false := hrest e rfl
    rw [amendedNormalize, if_neg (by simp [he])] at hd
    rw [List.head?_cons] at hd
    have := Option.some.inj hd
    subst this
    exact he

theorem amendedNormalize_idem (s : List Char) :
    amendedNormalize (amendedNormalize s) = amendedNormalize s := by
  induction s using amendedNormalize.induct with
  | case1 =>
    rw [amendedNormalize_nil, amendedNormalize_nil]
  | case2 c cs hsp ih =>
    have hA : amendedNormalize (c :: cs) =
        amendedRunNorm ((c :: cs).takeWhile isPySpace) ++
          amendedNormalize ((c :: cs).dropWhile isPySpace) := by
      rw [amendedNormalize, if_pos hsp]
    have hrws : ∀ d ∈ (c :: cs).takeWhile isPySpace, isPySpace d = true :=
      fun d hd => List.mem_takeWhile_imp hd
    have hRws : ∀ d ∈ amendedRunNorm ((c :: cs).takeWhile isPySpace),
        isPySpace d = true := amendedRunNorm_ws hrws
    have hresthead : ∀ d, ((c :: cs).dropWhile isPySpace).head? = some d →
        isPySpace d = false := fun d hd => dropWhile_head_not hd
    rw [hA, amendedNormalize_append_run _ _ hRws
      (amendedNormalize_head_not_space hresthead), amendedRunNorm_idem, ih]
  | case3 c cs hsp ih =>
    rw [amendedNormalize, if_neg hsp, amendedNormalize, if_neg hsp, ih]

/-- The skip condition of lines 67-69 is equivalent to the cleaned text being
shorter than 50 characters (an empty text has length 0 < 50). -/
theorem extract_skip_iff (t : List Char) :
    (t = [] || t.length < 50) = true ↔ t.length < 50 := by
  constructor
  · intro h
    rcases Bool.or_eq_true_iff.mp h with h | h
    · have : t = [] := by simpa using h
      rw [this]
      simp
    · simpa using h
  · intro h
    apply Bool.or_eq_true_iff.mpr
    right
    simpa using h

theorem extractChapters_cons_not_doc {item : Item} (rest : List Item) (n : Nat)
    (hdoc : item.isDocument = false) :
    extractChapters (item :: rest) n = extractChapters rest n := by
  rw [extractChapters, if_neg (by simp [hdoc])]

theorem extractChapters_cons_short {item : Item} (rest : List Item) (n : Nat)
    (hdoc : item.isDocument = true)
    (hshort : (cleanText item.text).length < 50) :
    extractChapters (item :: rest) n = extractChapters rest n := by
  rw [extractChapters, if_pos hdoc,
    if_pos ((extract_skip_iff (cleanText item.text)).mpr hshort)]

theorem extractChapters_cons_keep {item : Item} (rest : List Item) (n : Nat)
    (hdoc : item.isDocument = true)
    (hlong : 50 ≤ (cleanText item.text).length) :
    extractChapters (item :: rest) n =
      ⟨n + 1, itemTitle item, cleanText item.text⟩ :: extractChapters rest (n + 1) := by
  rw [extractChapters, if_pos hdoc, if_neg]
  intro h
  have := (extract_skip_iff (cleanText item.text)).mp h
  omega

/-- Retention is: a document item whose cleaned text has at least 50
characters. -/
theorem retainedItem_iff (item : Item) :
    retainedItem item = true ↔
      item.isDocument = true ∧ 50 ≤ (cleanText item.text).length := by
  unfold retainedItem
  rw [Bool.and_eq_true]
  constructor
  · rintro ⟨hdoc, hlong⟩
    refine ⟨hdoc, ?_⟩
    rw [Bool.not_eq_true'] at hlong
    by_contra hlt
    rw [(extract_skip_iff (cleanText item.text)).mpr (by omega)] at hlong
    cases hlong
  · rintro ⟨hdoc, hlong⟩
    refine ⟨hdoc, ?_⟩
    rw [Bool.not_eq_true']
    rw [Bool.eq_false_iff]
    intro h
    have := (extract_skip_iff (cleanText item.text)).mp h
    omega

theorem retainedItem_false_not_doc {item : Item} (hdoc : item.isDocument = false) :
    retainedItem item = false := by
  unfold retainedItem
  simp [hdoc]

theorem retainedItem_false_short {item : Item}
    (hshort : (cleanText item.text).length < 50) :
    retainedItem item = false := by
  rw [Bool.eq_false_iff]
  intro h
  have := (retainedItem_iff item).mp h
  omega

/-- The chapter numbers produced from counter value `n` are
`n+1, n+2, ...`, one per retained item. -/
theorem extractChapters_map_num (items : List Item) (n : Nat) :
    (extractChapters items n).map Chapter.num =
      List.range' (n + 1) (extractChapters items n).length := by
  induction items generalizing n with
  | nil => rfl
  | cons item rest ih =>
    by_cases hdoc : item.isDocument = true
    · by_cases hlong : 50 ≤ (cleanText item.text).length
      · rw [extractChapters_cons_keep rest n hdoc hlong, List.map_cons,
          List.length_cons, List.range'_succ, ih (n + 1)]
      · rw [extractChapters_cons_short rest n hdoc (by omega)]
        exact ih n
    · rw [extractChapters_cons_not_doc rest n (Bool.eq_false_iff.mpr hdoc)]
      exact ih n

/-- Exactly the retained items produce chapters. -/
theorem extractChapters_length (items : List Item) (n : Nat) :
    (extractChapters items n).length = (items.filter retainedItem).length := by
  induction items generalizing n with
  | nil => rfl
  | cons item rest ih =>
    by_cases hdoc : item.isDocument = true
    · by_cases hlong : 50 ≤ (cleanText item.text).length
      · rw [extractChapters_cons_keep rest n hdoc hlong, List.filter_cons,
          if_pos (by rw [(retainedItem_iff item).mpr ⟨hdoc, hlong⟩]),
          List.length_cons, List.length_cons, ih (n + 1)]
      · rw [extractChapters_cons_short rest n hdoc (by omega), List.filter_cons,
          if_neg (by rw [retainedItem_false_short (by omega)]; simp)]
        exact ih n
    · have hdoc' := Bool.eq_false_iff.mpr hdoc
      rw [extractChapters_cons_not_doc rest n hdoc', List.filter_cons,
        if_neg (by rw [retainedItem_false_not_doc hdoc']; simp)]
      exact ih n

/-- Chapter titles correspond, in order, to the retained items' titles. -/
theorem extractChapters_map_title (items : List Item) (n : Nat) :
    (extractChapters items n).map Chapter.title =
      (items.filter retainedItem).map itemTitle := by
  induction items generalizing n with
  | nil => rfl
  | cons item rest ih =>
    by_cases hdoc : item.isDocument = true
    · by_cases hlong : 50 ≤ (cleanText item.text).length
      · rw [extractChapters_cons_keep rest n hdoc hlong, List.filter_cons,
          if_pos (by rw [(retainedItem_iff item).mpr ⟨hdoc, hlong⟩]),
          List.map_cons, List.map_cons, ih (n + 1)]
      · rw [extractChapters_cons_short rest n hdoc (by omega), List.filter_cons,
          if_neg (by rw [retainedItem_false_short (by omega)]; simp)]
        exact ih n
    · have hdoc' := Bool.eq_false_iff.mpr hdoc
      rw [extractChapters_cons_not_doc rest n hdoc', List.filter_cons,
        if_neg (by rw [retainedItem_false_not_doc hdoc']; simp)]
      exact ih n

/-- The chapter numbers are pairwise distinct. -/
theorem extractChapters_num_injOn (items : List Item) (n : Nat) :
    ∀ c ∈ extractChapters items n, ∀ c' ∈ extractChapters items n,
      c.num = c'.num → c = c' := by
  apply List.inj_on_of_nodup_map
  rw [extractChapters_map_num]
  exact List.nodup_range' _ _

/-- `filterMap` with an if-none-else-some body is a filter followed by a map. -/
theorem filterMap_ite {α β : Type} (p : α → Bool) (f : α → β) (l : List α) :
    l.filterMap (fun a => if p a then none else some (f a)) =
      (l.filter (fun a => !p a)).map f := by
  induction l with
  | nil => rfl
  | cons a l ih =>
    rw [List.filterMap_cons, List.filter_cons]
    by_cases hp : p a = true
    · rw [if_pos (by rw [hp]), if_neg (by rw [hp]; simp)]
      exact ih
    · have hp' := Bool.eq_false_iff.mpr hp
      rw [if_neg (by rw [hp']; simp), if_pos (by rw [hp']; simp), List.map_cons, ih]

/-- The files written by a non-raising run, as a filter-then-map over the
extracted chapters. -/
theorem generate_files_eq (d : Bool) (bm : BookMetadata) (items : List Item)
    (outputDir : List Char) (synth : List Char → List (List Int)) :
    (generate_audiobook d false bm items outputDir synth).files =
      ((extract_chapters_from_epub items).filter
          (fun c => !(synth c.text).isEmpty)).map
        (fun c => fileFor outputDir bm (extract_chapters_from_epub items).length
          (synth c.text) c) := by
  show (extract_chapters_from_epub items).filterMap _ = _
  rw [← filterMap_ite (fun c => (synth c.text).isEmpty)
    (fun c => fileFor outputDir bm (extract_chapters_from_epub items).length
      (synth c.text) c) (extract_chapters_from_epub items)]

/-- C1 (counterexample): the claim that the number of output files always
equals the number of retained document items fails when the synthesizer
yields zero segments for a retained chapter: on a one-item book whose only
(60-character) document item is retained, a run whose synthesizer returns no
segments writes 0 files while 1 item is retained. -/
theorem C1_counterexample :
    (generate_audiobook true false demoBook [demoItemA] demoOutDir
      demoSynthNone).files.length = 0 ∧
    ([demoItemA].filter retainedItem).length = 1 := by
  decide

/-- C1 (amended): provided every retained chapter synthesizes to at least one
audio segment, the number of files written by `generate_audiobook` equals the
number of document items whose cleaned text is non-empty and at least 50
characters long; items below the threshold are dropped entirely and never
produce a file. -/
theorem C1_amended (d : Bool) (bm : BookMetadata) (items : List Item)
    (outDir : List Char) (synth : List Char → List (List Int))
    (hne : ∀ c ∈ extract_chapters_from_epub items, (synth c.text).isEmpty = false) :
    (generate_audiobook d false bm items outDir synth).files.length =
      (items.filter retainedItem).length := by
  rw [generate_files_eq, List.length_map,
    List.filter_eq_self.mpr (by intro c hc; simp [hne c hc])]
  exact extractChapters_length items 0

/-- C1 (witness): on the three-item demo book (two retained items) with a
synthesizer yielding one segment per chapter, two files are written. -/
theorem C1_witness :
    (∀ c ∈ extract_chapters_from_epub demoItems3,
      (demoSynthOne c.text).isEmpty = false) ∧
    (generate_audiobook true false demoBook demoItems3 demoOutDir
        demoSynthOne).files.length =
      (demoItems3.filter retainedItem).length :=
  ⟨by decide,
    C1_amended true demoBook demoItems3 demoOutDir demoSynthOne (by decide)⟩

/-- C2 (counterexample): the claim that the temporary WAV file never exists
after `save_audio_as_m4b` returns or raises fails when the initial
`sf.write` into the temporary file raises: the exception occurs before the
`try`/`finally`, so the cleanup never runs and the file persists. -/
theorem C2_counterexample :
    (save_audio_as_m4b true false false).raised = true ∧
    (save_audio_as_m4b true false false).tempWavExists = true := by
  decide

/-- C2 (amended): whenever the initial WAV write succeeds — so in particular
on a normal return and on an exception from the re-encode step or from tag
writing — the temporary intermediate WAV file does not exist after
`save_audio_as_m4b` returns or propagates its exception. -/
theorem C2_amended (exportRaises tagRaises : Bool) :
    (save_audio_as_m4b false exportRaises tagRaises).tempWavExists = false := by
  cases exportRaises <;> cases tagRaises <;> decide

/-- C3: the sequence numbers of the chapters returned by
`extract_chapters_from_epub` are exactly `1, 2, ..., k` in order, where `k`
is the number of retained chapters, regardless of interleaved non-document
or too-short items. -/
theorem C3_contiguous_numbering (items : List Item) :
    (extract_chapters_from_epub items).map Chapter.num =
      List.range' 1 (extract_chapters_from_epub items).length :=
  extractChapters_map_num items 0

/-- C4 (counterexample): the claim predicts that a dropped item lying between
two retained items leaves a gap (a difference greater than 1) in the
sequence numbers.  On the demo book — retained, dropped (too short),
retained — the retained chapters are numbered 1 and 2: they differ by
exactly 1, so no gap occurs. -/
theorem C4_counterexample :
    retainedItem demoItemShort = false ∧
    (extract_chapters_from_epub demoItems3).map Chapter.num = [1, 2] := by
  decide

/-- C4 (amended): sequence numbers are assigned by extraction order starting
at 1 and increment only for retained items; a skipped item does not consume
a number, so the numbering is the gap-free sequence `1, ..., k` with `k` the
number of retained items. -/
theorem C4_amended (items : List Item) :
    (extract_chapters_from_epub items).map Chapter.num =
      List.range' 1 (items.filter retainedItem).length := by
  rw [← extractChapters_length items 0]
  exact extractChapters_map_num items 0

/-- C5 (counterexample): the claim that every run of one-or-more newlines
(possibly mixed with spaces) is replaced by exactly one blank line fails on
a single newline: the regex `\n\s*\n` needs two newlines to match, so the
code leaves a lone newline unchanged while the claimed normalization would
double it. -/
theorem C5_counterexample :
    cleanText ['a', '\n', 'b'] = ['a', '\n', 'b'] ∧
    pyStrip (specNormalize ['a', '\n', 'b']) = ['a', '\n', '\n', 'b'] ∧
    cleanText ['a', '\n', 'b'] ≠ pyStrip (specNormalize ['a', '\n', 'b']) := by
  have h1 : cleanText ['a', '\n', 'b'] = ['a', '\n', 'b'] := by decide
  have h2 : specNormalize ['a', '\n', 'b'] = ['a', '\n', '\n', 'b'] := by
    simp [specNormalize, specRunNorm, isPySpace]
  have h3 : pyStrip (specNormalize ['a', '\n', 'b']) = ['a', '\n', '\n', 'b'] := by
    rw [h2]
    decide
  exact ⟨h1, h3, by rw [h1, h3]; decide⟩

/-- C5 (amended): in the text-cleaning step, every whitespace run containing
at least TWO newlines is normalized — the stretch from the run's first
newline through its last newline becomes exactly one blank line, keeping
whitespace before the first and after the last newline — while runs with a
single newline are unchanged, and the result is trimmed of leading and
trailing whitespace; this holds for every input string. -/
theorem C5_amended (s : List Char) :
    cleanText s = pyStrip (amendedNormalize s) := by
  unfold cleanText
  rw [collapseBlank_eq_amendedNormalize]

/-- C6: a chapter whose synthesizer output is empty is silently skipped:
the run does not raise, no output file carries that chapter's track number,
and every other chapter with non-empty synthesis still gets its file. -/
theorem C6_zero_segment_chapter_skipped (d : Bool) (bm : BookMetadata)
    (items : List Item) (outDir : List Char)
    (synth : List Char → List (List Int)) (c : Chapter)
    (hc : c ∈ extract_chapters_from_epub items) (hzero : synth c.text = []) :
    (generate_audiobook d false bm items outDir synth).raised = false ∧
    (∀ f ∈ (generate_audiobook d false bm items outDir synth).files,
      f.tags.trkn.1 ≠ c.num) ∧
    ∀ c2 ∈ extract_chapters_from_epub items, (synth c2.text).isEmpty = false →
      ∃ f ∈ (generate_audiobook d false bm items outDir synth).files,
        f.tags.trkn.1 = c2.num := by
  refine ⟨rfl, ?_, ?_⟩
  · intro f hf heq
    rw [generate_files_eq] at hf
    obtain ⟨c2, hc2, rfl⟩ := List.mem_map.mp hf
    obtain ⟨hc2mem, hc2ne⟩ := List.mem_filter.mp hc2
    have hnum : c2.num = c.num := heq
    have hceq : c2 = c := extractChapters_num_injOn items 0 c2 hc2mem c hc hnum
    rw [hceq, hzero] at hc2ne
    simp at hc2ne
  · intro c2 hc2 hne
    rw [generate_files_eq]
    refine ⟨fileFor outDir bm (extract_chapters_from_epub items).length
      (synth c2.text) c2, ?_, rfl⟩
    exact List.mem_map_of_mem _ (List.mem_filter.mpr ⟨hc2, by simp [hne]⟩)

/-- C6 (witness): on the demo book with a synthesizer that yields nothing for
chapter 1's text and a segment for chapter 2's, chapter 1 is skipped and
chapter 2 still produces a file. -/
theorem C6_witness :
    (⟨1, "ch1.xhtml".data, List.replicate 60 'a'⟩ : Chapter) ∈
      extract_chapters_from_epub demoItems3 ∧
    demoSynthSkipA (List.replicate 60 'a') = [] ∧
    ((generate_audiobook true false demoBook demoItems3 demoOutDir
        demoSynthSkipA).raised = false ∧
     (∀ f ∈ (generate_audiobook true false demoBook demoItems3 demoOutDir
        demoSynthSkipA).files,
        f.tags.trkn.1 ≠ (⟨1, "ch1.xhtml".data, List.replicate 60 'a'⟩ : Chapter).num) ∧
     ∀ c2 ∈ extract_chapters_from_epub demoItems3,
        (demoSynthSkipA c2.text).isEmpty = false →
        ∃ f ∈ (generate_audiobook true false demoBook demoItems3 demoOutDir
          demoSynthSkipA).files, f.tags.trkn.1 = c2.num) :=
  ⟨by decide, by decide,
    C6_zero_segment_chapter_skipped true demoBook demoItems3 demoOutDir
      demoSynthSkipA ⟨1, "ch1.xhtml".data, List.replicate 60 'a'⟩
      (by decide) (by decide)⟩

/-- C7: every written file's track-number tag pairs the chapter's sequence
number with the count of retained chapters (never the raw document-item
count): its second component equals the number of retained items. -/
theorem C7_track_number_total (d : Bool) (bm : BookMetadata)
    (items : List Item) (outDir : List Char)
    (synth : List Char → List (List Int)) (f : WrittenFile)
    (hf : f ∈ (generate_audiobook d false bm items outDir synth).files) :
    f.tags.trkn.2 = (items.filter retainedItem).length ∧
    ∃ c ∈ extract_chapters_from_epub items,
      f.tags.trkn = (c.num, (extract_chapters_from_epub items).length) := by
  rw [generate_files_eq] at hf
  obtain ⟨c, hc, rfl⟩ := List.mem_map.mp hf
  obtain ⟨hcm, hcne⟩ := List.mem_filter.mp hc
  constructor
  · show (extract_chapters_from_epub items).length = _
    exact extractChapters_length items 0
  · exact ⟨c, hcm, rfl⟩

/-- C7 (witness): in the demo run (three document items, two retained), the
file written for chapter 1 carries track number (1, 2). -/
theorem C7_witness :
    (fileFor demoOutDir demoBook 2 [[0]]
        ⟨1, "ch1.xhtml".data, List.replicate 60 'a'⟩) ∈
      (generate_audiobook true false demoBook demoItems3 demoOutDir
        demoSynthOne).files ∧
    ((fileFor demoOutDir demoBook 2 [[0]]
        ⟨1, "ch1.xhtml".data, List.replicate 60 'a'⟩).tags.trkn.2 =
      (demoItems3.filter retainedItem).length ∧
     ∃ c ∈ extract_chapters_from_epub demoItems3,
      (fileFor demoOutDir demoBook 2 [[0]]
        ⟨1, "ch1.xhtml".data, List.replicate 60 'a'⟩).tags.trkn =
        (c.num, (extract_chapters_from_epub demoItems3).length)) :=
  ⟨by decide,
    C7_track_number_total true demoBook demoItems3 demoOutDir demoSynthOne _
      (by decide)⟩

/-- C8: the blank-line collapse is idempotent — applying the substitution
twice yields the same text as applying it once, for every input string. -/
theorem C8_collapse_idempotent (s : List Char) :
    collapseBlank (collapseBlank s) = collapseBlank s := by
  rw [collapseBlank_eq_amendedNormalize (collapseBlank s),
    collapseBlank_eq_amendedNormalize s, amendedNormalize_idem]

/-- C9 (counterexample): the claim that the chapter title equals the text of
the first heading element fails when that text carries surrounding
whitespace: for a heading whose text is `" T "`, the code stores the
stripped `"T"`. -/
theorem C9_counterexample :
    (extract_chapters_from_epub [demoItemHeaded]).map Chapter.title = [['T']] ∧
    (['T'] : List Char) ≠ [' ', 'T', ' '] := by
  decide

/-- C9 (amended): for every retained document item, the chapter title is the
text of the item's first level-1/2/3 heading STRIPPED of leading and
trailing whitespace, falling back to the item's internal filename when no
such heading exists (`itemTitle`). -/
theorem C9_amended (items : List Item) :
    (extract_chapters_from_epub items).map Chapter.title =
      (items.filter retainedItem).map itemTitle :=
  extractChapters_map_title items 0

/-- C10: `generate_audiobook` creates the output directory (with
`exist_ok=True`) before opening the EPUB, so the directory exists after
every call — in particular after a run in which EPUB parsing or metadata
extraction raises, which aborts with no output files. -/
theorem C10_output_dir_before_parse (d pr : Bool) (bm : BookMetadata)
    (items : List Item) (outDir : List Char)
    (synth : List Char → List (List Int)) :
    (generate_audiobook d pr bm items outDir synth).outputDirExists = true ∧
    (generate_audiobook d true bm items outDir synth).raised = true ∧
    (generate_audiobook d true bm items outDir synth).files = [] := by
  refine ⟨?_, rfl, rfl⟩
  cases pr <;> simp [generate_audiobook]

end AudiobookGen
